import Mathlib

/-!
Verification of the osmflat-rs core against its specification.

The development shallowly embeds the three source files of the repository:
  * `src/strings.rs`   — the PBF string table (dual-mode interner),
  * `src/osmpbf.rs`    — framed blob reading, block classification, block index,
  * `src/parallel.rs`  — the ordered parallel pipeline.

Rust strings are modelled as their UTF-8 byte sequences (`List UInt8`), machine
integers as `Nat` with explicit two's-complement conversions where the source
casts between `i32`/`usize`, hash maps as association lists in insertion order,
and the concurrent pipeline as a small-step transition relation over an explicit
state record.
-/

set_option maxHeartbeats 1000000

namespace Osmflat

/-! ## String table (src/strings.rs)

A Rust `String` is modelled by its UTF-8 bytes; `s.len()` is the byte length.
The `HashMap<String, u32>` of the source is modelled as an association list in
insertion order (the map never holds two entries for the same key, and the
final `into_bytes` result is independent of iteration order, which is proved
below via the canonical `entries` list). -/

abbrev Str := List UInt8

structure StringTable where
  indexed_data : List (Str × Nat)
  contiguous_data : List (Str × Nat)
  size_in_bytes : Nat
deriving DecidableEq

def StringTable.empty : StringTable := ⟨[], [], 0⟩

/-- Association-list lookup, modelling `HashMap::get`. -/
def stLookup (s : Str) : List (Str × Nat) → Option Nat
  | [] => none
  | p :: rest => if p.1 = s then some p.2 else stLookup s rest

def StringTable.next_index (st : StringTable) : Nat := st.size_in_bytes

/-- `StringTable::insert`: deduplicating insert returning the byte offset. -/
def StringTable.insert (st : StringTable) (s : Str) : Nat × StringTable :=
  match stLookup s st.indexed_data with
  | some idx => (idx, st)
  | none =>
    let idx := st.size_in_bytes
    (idx, { st with
            indexed_data := st.indexed_data ++ [(s, idx)],
            size_in_bytes := idx + s.length + 1 })

/-- `StringTable::push`: always appends to the contiguous sequence, and also
records the offset in the dedup map if the string is new (`entry().or_insert`). -/
def StringTable.push (st : StringTable) (s : Str) : Nat × StringTable :=
  let idx := st.size_in_bytes
  let indexed := match stLookup s st.indexed_data with
    | some _ => st.indexed_data
    | none => st.indexed_data ++ [(s, idx)]
  (idx, { indexed_data := indexed,
          contiguous_data := st.contiguous_data ++ [(s, idx)],
          size_in_bytes := idx + s.length + 1 })

/-- `Vec::dedup_by_key` on the offset component: of each run of consecutive
elements with equal key, keep only the first.  `dedupAux k l` processes the
tail of a run whose kept representative had key `k`. -/
def dedupAux (k : Nat) : List (Str × Nat) → List (Str × Nat)
  | [] => []
  | b :: rest => if b.2 = k then dedupAux k rest else b :: dedupAux b.2 rest

def dedupByIdx : List (Str × Nat) → List (Str × Nat)
  | [] => []
  | a :: rest => a :: dedupAux a.2 rest

/-- Comparison used by `index.sort_by_key(|(_, &idx)| idx)`: order by offset. -/
def offLe (a b : Str × Nat) : Prop := a.2 ≤ b.2

instance : DecidableRel offLe := fun a b => Nat.decLe a.2 b.2

instance : IsTotal (Str × Nat) offLe := ⟨fun a b => Nat.le_total a.2 b.2⟩

instance : IsTrans (Str × Nat) offLe := ⟨fun _ _ _ h1 h2 => Nat.le_trans h1 h2⟩

/-- The index list built inside `StringTable::into_bytes`: all `(string, offset)`
pairs of both stores, sorted by offset, deduplicated by offset.  (The source
uses a stable in-place sort; the emitted list is proved below to be canonical —
fully determined by the pair set — so the choice of sorting algorithm and of
the hash-map iteration order is immaterial.) -/
def StringTable.entries (st : StringTable) : List (Str × Nat) :=
  dedupByIdx ((st.indexed_data ++ st.contiguous_data).insertionSort offLe)

/-- `StringTable::into_bytes`: emit each indexed string followed by `0x00`. -/
def StringTable.into_bytes (st : StringTable) : List UInt8 :=
  st.entries.flatMap (fun p => p.1 ++ [0])

/-- A sequence of operations on the table (used to quantify over all
insert/push interleavings). -/
inductive StOp
  | ins (s : Str)
  | pus (s : Str)
deriving DecidableEq

/-- Apply one operation, extending the trace of `(argument, returned index)`
pairs. -/
def applyOp : StringTable × List (Str × Nat) → StOp → StringTable × List (Str × Nat)
  | (st, tr), .ins s => ((st.insert s).2, tr ++ [(s, (st.insert s).1)])
  | (st, tr), .pus s => ((st.push s).2, tr ++ [(s, (st.push s).1)])

/-- Run a whole operation sequence from the empty table. -/
def applyOps (ops : List StOp) : StringTable × List (Str × Nat) :=
  ops.foldl applyOp (StringTable.empty, [])

/-- All pairs recorded in either store of the table. -/
def StringTable.recorded (st : StringTable) : List (Str × Nat) :=
  st.indexed_data ++ st.contiguous_data

/-- `packed n es m`: the entry list `es` tiles the byte range `[n, m)` exactly,
each entry at its offset, each occupying its length plus one terminator byte. -/
def packed : Nat → List (Str × Nat) → Nat → Prop
  | n, [], m => n = m
  | n, p :: rest, m => p.2 = n ∧ packed (n + p.1.length + 1) rest m

/-- The byte emission of an entry list (body of `into_bytes` after indexing). -/
def emit (es : List (Str × Nat)) : List UInt8 :=
  es.flatMap (fun p => p.1 ++ [0])

/-- Reachability invariant of a `StringTable`: some packed entry list carries
exactly the recorded pairs. -/
def STInv (st : StringTable) : Prop :=
  ∃ es, packed 0 es st.size_in_bytes ∧ ∀ p, (p ∈ st.recorded ↔ p ∈ es)

/-- Combined induction invariant for a run: the table satisfies `STInv` and
every `(string, returned index)` pair of the trace is recorded in the table. -/
def RunInv (acc : StringTable × List (Str × Nat)) : Prop :=
  STInv acc.1 ∧ ∀ p ∈ acc.2, p ∈ acc.1.recorded

theorem into_bytes_eq_emit (st : StringTable) : st.into_bytes = emit st.entries := rfl

theorem stLookup_mem {s : Str} :
    ∀ {l : List (Str × Nat)} {i : Nat}, stLookup s l = some i → (s, i) ∈ l := by
  intro l
  induction l with
  | nil => intro i h; simp [stLookup] at h
  | cons p rest ih =>
    intro i h
    simp only [stLookup] at h
    by_cases hc : p.1 = s
    · rw [if_pos hc] at h
      cases h
      subst hc
      simp
    · rw [if_neg hc] at h
      exact List.mem_cons_of_mem _ (ih h)

theorem stLookup_append_none {s : Str} {l l' : List (Str × Nat)}
    (h : stLookup s l = none) : stLookup s (l ++ l') = stLookup s l' := by
  induction l with
  | nil => simp
  | cons p rest ih =>
    simp only [stLookup] at h ⊢
    by_cases hc : p.1 = s
    · rw [if_pos hc] at h; cases h
    · rw [if_neg hc] at h ⊢
      exact ih h

theorem packed_le {es : List (Str × Nat)} :
    ∀ {n m : Nat}, packed n es m → n ≤ m := by
  induction es with
  | nil => intro n m h; simp only [packed] at h; omega
  | cons q rest ih =>
    intro n m h
    have := ih h.2
    omega

theorem packed_mem {es : List (Str × Nat)} :
    ∀ {n m : Nat}, packed n es m → ∀ p ∈ es, n ≤ p.2 ∧ p.2 + p.1.length + 1 ≤ m := by
  induction es with
  | nil => intro n m _ p hp; cases hp
  | cons q rest ih =>
    intro n m h p hp
    obtain ⟨hq, hrest⟩ := h
    have hnm : n + q.1.length + 1 ≤ m := packed_le hrest
    rcases List.mem_cons.mp hp with hp | hp
    · subst hp; omega
    · have := ih hrest p hp
      omega

theorem packed_pairwise {es : List (Str × Nat)} :
    ∀ {n m : Nat}, packed n es m → es.Pairwise (fun a b => a.2 < b.2) := by
  induction es with
  | nil => intro n m _; exact List.Pairwise.nil
  | cons q rest ih =>
    intro n m h
    obtain ⟨hq, hrest⟩ := h
    refine List.Pairwise.cons ?_ (ih hrest)
    intro b hb
    have := (packed_mem hrest b hb).1
    omega

theorem pairwiseLt_keyInj {es : List (Str × Nat)}
    (hpw : es.Pairwise (fun a b => a.2 < b.2)) :
    ∀ a ∈ es, ∀ b ∈ es, a.2 = b.2 → a = b := by
  induction es with
  | nil => intro a ha; cases ha
  | cons q rest ih =>
    rw [List.pairwise_cons] at hpw
    intro a ha b hb heq
    rcases List.mem_cons.mp ha with ha1 | ha1
    · rcases List.mem_cons.mp hb with hb1 | hb1
      · rw [ha1, hb1]
      · exfalso
        have := hpw.1 b hb1
        rw [ha1] at heq
        omega
    · rcases List.mem_cons.mp hb with hb1 | hb1
      · exfalso
        have := hpw.1 a ha1
        rw [hb1] at heq
        omega
      · exact ih hpw.2 a ha1 b hb1 heq

theorem packed_keyInj {n m : Nat} {es : List (Str × Nat)} (h : packed n es m) :
    ∀ a ∈ es, ∀ b ∈ es, a.2 = b.2 → a = b :=
  pairwiseLt_keyInj (packed_pairwise h)

theorem packed_snoc {es : List (Str × Nat)} :
    ∀ {n m : Nat}, packed n es m → ∀ s : Str, packed n (es ++ [(s, m)]) (m + s.length + 1) := by
  induction es with
  | nil =>
    intro n m h s
    simp only [packed] at h
    subst h
    exact ⟨rfl, rfl⟩
  | cons q rest ih =>
    intro n m h s
    obtain ⟨hq, hrest⟩ := h
    exact ⟨hq, ih hrest s⟩

theorem emit_length {es : List (Str × Nat)} :
    ∀ {n m : Nat}, packed n es m → (emit es).length + n = m := by
  induction es with
  | nil =>
    intro n m h
    simp only [packed] at h
    simp [emit, h]
  | cons q rest ih =>
    intro n m h
    obtain ⟨_, hrest⟩ := h
    have := ih hrest
    simp only [emit, List.flatMap_cons, List.length_append] at this ⊢
    simp only [List.length_singleton]
    omega

theorem emit_prefix {es : List (Str × Nat)} :
    ∀ {n m : Nat}, packed n es m →
      ∀ p ∈ es, List.IsPrefix (p.1 ++ [0]) ((emit es).drop (p.2 - n)) := by
  induction es with
  | nil => intro n m _ p hp; cases hp
  | cons q rest ih =>
    intro n m h p hp
    obtain ⟨hq, hrest⟩ := h
    rcases List.mem_cons.mp hp with hp | hp
    · subst hp
      rw [hq, Nat.sub_self]
      simp only [emit, List.flatMap_cons, List.drop_zero]
      exact ⟨emit rest, by simp [emit]⟩
    · have hge : n + q.1.length + 1 ≤ p.2 := (packed_mem hrest p hp).1
      have := ih hrest p hp
      have harith : p.2 - n = (q.1 ++ [0]).length + (p.2 - (n + q.1.length + 1)) := by
        simp only [List.length_append, List.length_singleton]
        omega
      simp only [emit, List.flatMap_cons]
      rw [harith, List.drop_append]
      exact this

theorem dedupAux_spec :
    ∀ (l : List (Str × Nat)) (rep : Str × Nat),
      l.Pairwise offLe →
      (∀ x ∈ l, ∀ y ∈ l, x.2 = y.2 → x = y) →
      (∀ x ∈ l, rep.2 ≤ x.2) →
      (∀ x ∈ l, x.2 = rep.2 → x = rep) →
      (dedupAux rep.2 l).Pairwise (fun a b => a.2 < b.2)
      ∧ (∀ x ∈ dedupAux rep.2 l, rep.2 < x.2)
      ∧ (∀ p, p ∈ dedupAux rep.2 l ↔ (p ∈ l ∧ p.2 ≠ rep.2)) := by
  intro l
  induction l with
  | nil =>
    intro rep _ _ _ _
    refine ⟨List.Pairwise.nil, ?_, ?_⟩
    · intro x hx; cases hx
    · intro p; simp [dedupAux]
  | cons b rest ih =>
    intro rep hs hk hle hrep
    rw [List.pairwise_cons] at hs
    have hble : ∀ x ∈ rest, b.2 ≤ x.2 := fun x hx => hs.1 x hx
    by_cases hbk : b.2 = rep.2
    · -- `b` is a duplicate of the kept representative and is dropped
      have hbrep : b = rep := hrep b (List.mem_cons_self b rest) hbk
      have := ih rep hs.2
        (fun x hx y hy => hk x (List.mem_cons_of_mem _ hx) y (List.mem_cons_of_mem _ hy))
        (fun x hx => by have := hble x hx; omega)
        (fun x hx hxk => by
          have hxb : x = b := hk x (List.mem_cons_of_mem _ hx) b (List.mem_cons_self b rest)
            (by omega)
          rw [hxb, hbrep])
      simp only [dedupAux, if_pos hbk]
      refine ⟨this.1, this.2.1, ?_⟩
      intro p
      rw [(this.2.2 p)]
      constructor
      · intro hp; exact ⟨List.mem_cons_of_mem _ hp.1, hp.2⟩
      · intro hp
        rcases List.mem_cons.mp hp.1 with h1 | h1
        · exfalso; rw [h1] at hp; exact hp.2 hbk
        · exact ⟨h1, hp.2⟩
    · -- `b` starts a new run and is kept
      have hrb : rep.2 < b.2 := by
        have := hle b (List.mem_cons_self b rest)
        omega
      have := ih b hs.2
        (fun x hx y hy => hk x (List.mem_cons_of_mem _ hx) y (List.mem_cons_of_mem _ hy))
        hble
        (fun x hx hxk => hk x (List.mem_cons_of_mem _ hx) b (List.mem_cons_self b rest) hxk)
      simp only [dedupAux, if_neg hbk]
      refine ⟨?_, ?_, ?_⟩
      · exact List.Pairwise.cons (fun x hx => this.2.1 x hx) this.1
      · intro x hx
        rcases List.mem_cons.mp hx with h1 | h1
        · rw [h1]; exact hrb
        · have := this.2.1 x h1; omega
      · intro p
        constructor
        · intro hp
          rcases List.mem_cons.mp hp with h1 | h1
          · rw [h1]; exact ⟨List.mem_cons_self b rest, by omega⟩
          · have := (this.2.2 p).mp h1
            refine ⟨List.mem_cons_of_mem _ this.1, ?_⟩
            have := hble p this.1
            omega
        · intro hp
          rcases List.mem_cons.mp hp.1 with h1 | h1
          · rw [h1]; exact List.mem_cons_self _ _
          · by_cases hpb : p.2 = b.2
            · have : p = b := hk p (List.mem_cons_of_mem _ h1) b (List.mem_cons_self b rest) hpb
              rw [this]; exact List.mem_cons_self _ _
            · exact List.mem_cons_of_mem _ ((this.2.2 p).mpr ⟨h1, hpb⟩)

theorem dedupByIdx_spec (l : List (Str × Nat))
    (hs : l.Pairwise offLe)
    (hk : ∀ x ∈ l, ∀ y ∈ l, x.2 = y.2 → x = y) :
    (dedupByIdx l).Pairwise (fun a b => a.2 < b.2)
    ∧ (∀ p, p ∈ dedupByIdx l ↔ p ∈ l) := by
  cases l with
  | nil =>
    constructor
    · exact List.Pairwise.nil
    · intro p; rfl
  | cons a rest =>
    rw [List.pairwise_cons] at hs
    have := dedupAux_spec rest a hs.2
      (fun x hx y hy => hk x (List.mem_cons_of_mem _ hx) y (List.mem_cons_of_mem _ hy))
      (fun x hx => hs.1 x hx)
      (fun x hx hxk => hk x (List.mem_cons_of_mem _ hx) a (List.mem_cons_self a rest) hxk)
    constructor
    · exact List.Pairwise.cons (fun x hx => this.2.1 x hx) this.1
    · intro p
      simp only [dedupByIdx]
      constructor
      · intro hp
        rcases List.mem_cons.mp hp with h1 | h1
        · rw [h1]; exact List.mem_cons_self _ _
        · exact List.mem_cons_of_mem _ ((this.2.2 p).mp h1).1
      · intro hp
        rcases List.mem_cons.mp hp with h1 | h1
        · rw [h1]; exact List.mem_cons_self _ _
        · by_cases hpa : p.2 = a.2
          · have : p = a := hk p (List.mem_cons_of_mem _ h1) a (List.mem_cons_self a rest) hpa
            rw [this]; exact List.mem_cons_self _ _
          · exact List.mem_cons_of_mem _ ((this.2.2 p).mpr ⟨h1, hpa⟩)

theorem strict_sorted_ext :
    ∀ {l₁ l₂ : List (Str × Nat)},
      l₁.Pairwise (fun a b => a.2 < b.2) → l₂.Pairwise (fun a b => a.2 < b.2) →
      (∀ p, p ∈ l₁ ↔ p ∈ l₂) → l₁ = l₂ := by
  intro l₁
  induction l₁ with
  | nil =>
    intro l₂ _ _ hm
    cases l₂ with
    | nil => rfl
    | cons b t₂ => exact absurd ((hm b).mpr (List.mem_cons_self b t₂)) (List.not_mem_nil b)
  | cons a t₁ ih =>
    intro l₂ h1 h2 hm
    cases l₂ with
    | nil => exact absurd ((hm a).mp (List.mem_cons_self a t₁)) (List.not_mem_nil a)
    | cons b t₂ =>
      rw [List.pairwise_cons] at h1 h2
      have hab : a = b := by
        rcases List.mem_cons.mp ((hm a).mp (List.mem_cons_self a t₁)) with h | h
        · exact h
        · rcases List.mem_cons.mp ((hm b).mpr (List.mem_cons_self b t₂)) with h' | h'
          · rw [h']
          · have hba := h2.1 a h
            have hab := h1.1 b h'
            omega
      subst hab
      have htail : ∀ p, p ∈ t₁ ↔ p ∈ t₂ := by
        intro p
        constructor
        · intro hp
          rcases List.mem_cons.mp ((hm p).mp (List.mem_cons_of_mem _ hp)) with h | h
          · exfalso; have := h1.1 p hp; rw [h] at this; omega
          · exact h
        · intro hp
          rcases List.mem_cons.mp ((hm p).mpr (List.mem_cons_of_mem _ hp)) with h | h
          · exfalso; have := h2.1 p hp; rw [h] at this; omega
          · exact h
      rw [ih h1.2 h2.2 htail]

theorem entries_spec {st : StringTable} (h : STInv st) :
    packed 0 st.entries st.size_in_bytes ∧ ∀ p, (p ∈ st.recorded ↔ p ∈ st.entries) := by
  obtain ⟨es, hp, hm⟩ := h
  have hksort : ∀ x ∈ (st.recorded).insertionSort offLe,
      ∀ y ∈ (st.recorded).insertionSort offLe, x.2 = y.2 → x = y := by
    intro x hx y hy
    rw [List.mem_insertionSort] at hx hy
    exact packed_keyInj hp x ((hm x).mp hx) y ((hm y).mp hy)
  have hsorted : ((st.recorded).insertionSort offLe).Pairwise offLe :=
    List.sorted_insertionSort offLe st.recorded
  have hd := dedupByIdx_spec _ hsorted hksort
  have hent : st.entries = es := by
    apply strict_sorted_ext hd.1 (packed_pairwise hp)
    intro p
    rw [hd.2 p, List.mem_insertionSort]
    exact hm p
  rw [show st.entries = dedupByIdx ((st.recorded).insertionSort offLe) from rfl] at hent
  constructor
  · rw [show st.entries = dedupByIdx ((st.recorded).insertionSort offLe) from rfl, hent]
    exact hp
  · intro p
    rw [show st.entries = dedupByIdx ((st.recorded).insertionSort offLe) from rfl, hent]
    exact hm p

theorem STInv_empty : STInv StringTable.empty := by
  refine ⟨[], ?_, ?_⟩
  · exact rfl
  · intro p
    simp [StringTable.recorded, StringTable.empty]

theorem recorded_insert_subset (st : StringTable) (s : Str) :
    ∀ p ∈ st.recorded, p ∈ (st.insert s).2.recorded := by
  intro p hp
  unfold StringTable.insert
  cases hl : stLookup s st.indexed_data with
  | some i => exact hp
  | none =>
    simp only [StringTable.recorded, List.mem_append] at hp ⊢
    rcases hp with hp | hp
    · left; simp [hp]
    · right; exact hp

theorem recorded_push_subset (st : StringTable) (s : Str) :
    ∀ p ∈ st.recorded, p ∈ (st.push s).2.recorded := by
  intro p hp
  unfold StringTable.push
  simp only [StringTable.recorded, List.mem_append] at hp ⊢
  cases hl : stLookup s st.indexed_data with
  | some i =>
    rcases hp with hp | hp
    · left; exact hp
    · right; simp [hp]
  | none =>
    rcases hp with hp | hp
    · left; simp [hp]
    · right; simp [hp]

theorem RunInv_applyOp {acc : StringTable × List (Str × Nat)} (h : RunInv acc) (op : StOp) :
    RunInv (applyOp acc op) := by
  obtain ⟨⟨es, hpk, hmem⟩, htr⟩ := h
  obtain ⟨st, tr⟩ := acc
  cases op with
  | ins s =>
    simp only [applyOp]
    cases hl : stLookup s st.indexed_data with
    | some i =>
      have hins : st.insert s = (i, st) := by simp [StringTable.insert, hl]
      rw [hins]
      refine ⟨⟨es, hpk, hmem⟩, ?_⟩
      intro p hp
      rcases List.mem_append.mp hp with hp | hp
      · exact htr p hp
      · rcases List.mem_singleton.mp hp with rfl
        exact List.mem_append.mpr (Or.inl (stLookup_mem hl))
    | none =>
      have hins : st.insert s =
          (st.size_in_bytes,
           { st with indexed_data := st.indexed_data ++ [(s, st.size_in_bytes)],
                     size_in_bytes := st.size_in_bytes + s.length + 1 }) := by
        simp [StringTable.insert, hl]
      rw [hins]
      refine ⟨⟨es ++ [(s, st.size_in_bytes)], packed_snoc hpk s, ?_⟩, ?_⟩
      · intro p
        simp only [StringTable.recorded, List.mem_append, List.mem_singleton] at hmem ⊢
        constructor
        · intro hp
          rcases hp with (hp | hp) | hp
          · exact Or.inl ((hmem p).mp (Or.inl hp))
          · exact Or.inr hp
          · exact Or.inl ((hmem p).mp (Or.inr hp))
        · intro hp
          rcases hp with hp | hp
          · rcases (hmem p).mpr hp with hp' | hp'
            · exact Or.inl (Or.inl hp')
            · exact Or.inr hp'
          · exact Or.inl (Or.inr hp)
      · intro p hp
        simp only [StringTable.recorded, List.mem_append, List.mem_singleton]
        rcases List.mem_append.mp hp with hp | hp
        · have := htr p hp
          rcases List.mem_append.mp this with hp' | hp'
          · exact Or.inl (Or.inl hp')
          · exact Or.inr hp'
        · rcases List.mem_singleton.mp hp with rfl
          exact Or.inl (Or.inr rfl)
  | pus s =>
    simp only [applyOp]
    have hpush1 : (st.push s).1 = st.size_in_bytes := rfl
    refine ⟨⟨es ++ [(s, st.size_in_bytes)], ?_, ?_⟩, ?_⟩
    · have : (st.push s).2.size_in_bytes = st.size_in_bytes + s.length + 1 := by
        simp [StringTable.push]
      rw [this]
      exact packed_snoc hpk s
    · intro p
      have hrec : (st.push s).2.recorded =
          (match stLookup s st.indexed_data with
            | some _ => st.indexed_data
            | none => st.indexed_data ++ [(s, st.size_in_bytes)])
          ++ (st.contiguous_data ++ [(s, st.size_in_bytes)]) := by
        simp [StringTable.push, StringTable.recorded]
      rw [hrec]
      cases hl : stLookup s st.indexed_data with
      | some i =>
        simp only [List.mem_append, List.mem_singleton]
        simp only [StringTable.recorded, List.mem_append] at hmem
        constructor
        · intro hp
          rcases hp with hp | hp | hp
          · exact Or.inl ((hmem p).mp (Or.inl hp))
          · exact Or.inl ((hmem p).mp (Or.inr hp))
          · exact Or.inr hp
        · intro hp
          rcases hp with hp | hp
          · rcases (hmem p).mpr hp with hp' | hp'
            · exact Or.inl hp'
            · exact Or.inr (Or.inl hp')
          · exact Or.inr (Or.inr hp)
      | none =>
        simp only [List.mem_append, List.mem_singleton]
        simp only [StringTable.recorded, List.mem_append] at hmem
        constructor
        · intro hp
          rcases hp with (hp | hp) | hp | hp
          · exact Or.inl ((hmem p).mp (Or.inl hp))
          · exact Or.inr hp
          · exact Or.inl ((hmem p).mp (Or.inr hp))
          · exact Or.inr hp
        · intro hp
          rcases hp with hp | hp
          · rcases (hmem p).mpr hp with hp' | hp'
            · exact Or.inl (Or.inl hp')
            · exact Or.inr (Or.inl hp')
          · exact Or.inr (Or.inr hp)
    · intro p hp
      rcases List.mem_append.mp hp with hp | hp
      · exact recorded_push_subset st s p (htr p hp)
      · rcases List.mem_singleton.mp hp with rfl
        have : (s, st.size_in_bytes) ∈ (st.push s).2.contiguous_data := by
          simp [StringTable.push]
        exact List.mem_append.mpr (Or.inr this)

theorem RunInv_applyOps (ops : List StOp) : RunInv (applyOps ops) := by
  have hgen : ∀ (l : List StOp) (acc : StringTable × List (Str × Nat)),
      RunInv acc → RunInv (l.foldl applyOp acc) := by
    intro l
    induction l with
    | nil => intro acc h; exact h
    | cons op rest ih =>
      intro acc h
      exact ih _ (RunInv_applyOp h op)
  exact hgen ops _ ⟨STInv_empty, fun p hp => absurd hp (List.not_mem_nil p)⟩

abbrev Bytes := List UInt8

inductive BlockType
  | header
  | nodes
  | denseNodes
  | ways
  | relations
deriving DecidableEq

/-- Declaration-order rank of the derived `Ord` on `BlockType`. -/
def BlockType.rank : BlockType → Nat
  | .header => 0
  | .nodes => 1
  | .denseNodes => 2
  | .ways => 3
  | .relations => 4

structure BlockIndex where
  block_type : BlockType
  blob_start : Nat
  blob_len : Nat
  blob_header_len : Nat
deriving DecidableEq

/-- The derived lexicographic `Ord` on `BlockIndex`: compare `block_type`
(declaration order), then `blob_start`, then `blob_len`, then
`blob_header_len`. -/
def biLe (a b : BlockIndex) : Bool :=
  if a.block_type.rank < b.block_type.rank then true
  else if b.block_type.rank < a.block_type.rank then false
  else if a.blob_start < b.blob_start then true
  else if b.blob_start < a.blob_start then false
  else if a.blob_len < b.blob_len then true
  else if b.blob_len < a.blob_len then false
  else a.blob_header_len ≤ b.blob_header_len

def biLeP (a b : BlockIndex) : Prop := biLe a b = true

instance : DecidableRel biLeP := fun a b => instDecidableEqBool (biLe a b) true

/-- Modelled from the spec: LEB128 varint decoding as done by the external
protobuf library (up to ten bytes, little-endian 7-bit groups, final byte of a
ten-byte varint at most 1); an exhausted buffer is a decode error. -/
def decodeVarintAux : Bytes → Nat → Nat → Except Unit (Nat × Bytes)
  | [], _, _ => .error ()
  | b :: rest, i, acc =>
    let acc' := acc + (b.toNat % 128) * 2 ^ (7 * i)
    if b.toNat < 128 then
      if i = 9 && b.toNat > 1 then .error () else .ok (acc', rest)
    else if i ≥ 9 then .error ()
    else decodeVarintAux rest (i + 1) acc'

def decodeVarint (s : Bytes) : Except Unit (Nat × Bytes) :=
  decodeVarintAux s 0 0

/-- Modelled from the spec: `prost::encoding::decode_key` — a varint key whose
value must fit `u32`, split as `tag = key >> 3` and wire type `key & 7`; wire
types 6 and 7 are invalid. -/
def decodeKey (s : Bytes) : Except Unit (Nat × Nat × Bytes) :=
  match decodeVarint s with
  | .error e => .error e
  | .ok (v, rest) =>
    if v > 4294967295 then .error ()
    else if v % 8 ≥ 6 then .error ()
    else .ok (v / 8, v % 8, rest)

/-- `read_exact`: take exactly `n` bytes or fail (the failure is
`UnexpectedEof` at the `io` level). -/
def readExact (n : Nat) (s : Bytes) : Option (Bytes × Bytes) :=
  if n ≤ s.length then some (s.take n, s.drop n) else none

mutual

/-- Modelled from the spec: `prost::encoding::skip_field` by wire type
(varint, 8 bytes, length-delimited, group, 4 bytes).  `fuel` bounds the group
recursion; it is always called with more fuel than remaining bytes. -/
def skipField (fuel : Nat) (wire : Nat) (s : Bytes) : Except Unit Bytes :=
  match wire with
  | 0 =>
    match decodeVarint s with
    | .error e => .error e
    | .ok (_, rest) => .ok rest
  | 1 =>
    match readExact 8 s with
    | some (_, rest) => .ok rest
    | none => .error ()
  | 2 =>
    match decodeVarint s with
    | .error e => .error e
    | .ok (n, rest) =>
      match readExact n rest with
      | some (_, rest2) => .ok rest2
      | none => .error ()
  | 3 =>
    match fuel with
    | 0 => .error ()
    | f + 1 => skipGroup f s
  | 5 =>
    match readExact 4 s with
    | some (_, rest) => .ok rest
    | none => .error ()
  | _ => .error ()

/-- Modelled from the spec: group skipping for `skip_field` — read keys and
skip fields until the matching end-group key. -/
def skipGroup (fuel : Nat) (s : Bytes) : Except Unit Bytes :=
  match fuel with
  | 0 => .error ()
  | f + 1 =>
    match decodeKey s with
    | .error e => .error e
    | .ok (_, wire, rest) =>
      if wire = 4 then .ok rest
      else
        match skipField f wire rest with
        | .error e => .error e
        | .ok rest2 => skipGroup f rest2

end

/-- Outcome of `BlockType::from_osmdata_blob`: a block type, an `io::Error`
(of kind `InvalidData`, from the protobuf layer), or an unwinding `panic!`. -/
inductive COut
  | ok (bt : BlockType)
  | err
  | panicked (msg : String)
deriving DecidableEq

/-- The scan loop of `from_osmdata_blob`: skip top-level fields until tag 2
(the first `primitivegroup`), decode its length varint, decode the first inner
key, and map its tag to a block type; tags 5 and unknown tags hit `panic!` in
the source.  `fuel` exceeds the buffer length, and each iteration consumes at
least one byte. -/
def fromOsmdataBlobLoop : Nat → Bytes → COut
  | 0, _ => .err
  | fuel + 1, s =>
    match decodeKey s with
    | .error _ => .err
    | .ok (key, wire, rest) =>
      if key ≠ 2 then
        match skipField fuel wire rest with
        | .error _ => .err
        | .ok rest2 => fromOsmdataBlobLoop fuel rest2
      else
        match decodeVarint rest with
        | .error _ => .err
        | .ok (_, rest2) =>
          match decodeKey rest2 with
          | .error _ => .err
          | .ok (tag, _, _) =>
            if tag = 1 then .ok .nodes
            else if tag = 2 then .ok .denseNodes
            else if tag = 3 then .ok .ways
            else if tag = 4 then .ok .relations
            else if tag = 5 then .panicked "found block containing unsupported changesets"
            else .panicked "invalid input data: malformed primitive block"

def fromOsmdataBlob (s : Bytes) : COut :=
  fromOsmdataBlobLoop (s.length + 1) s

/-- Modelled from the spec: the `BlobHeader` protobuf message as generated by
prost — field 1 `type` (string), field 2 `indexdata` (bytes, skipped), field 3
`datasize` (int32, stored as its low 32 bits).  Missing fields keep their
defaults (prost fills proto2 required fields with defaults). -/
structure BlobHeaderM where
  type_ : Bytes
  datasizeBits : Nat
deriving DecidableEq

def decodeBlobHeaderLoop : Nat → Bytes → BlobHeaderM → Except Unit BlobHeaderM
  | 0, _, _ => .error ()
  | fuel + 1, s, acc =>
    match s with
    | [] => .ok acc
    | _ :: _ =>
      match decodeKey s with
      | .error e => .error e
      | .ok (tag, wire, rest) =>
        if tag = 1 then
          if wire ≠ 2 then .error ()
          else
            match decodeVarint rest with
            | .error e => .error e
            | .ok (n, rest2) =>
              match readExact n rest2 with
              | none => .error ()
              | some (v, rest3) => decodeBlobHeaderLoop fuel rest3 { acc with type_ := v }
        else if tag = 2 then
          if wire ≠ 2 then .error ()
          else
            match decodeVarint rest with
            | .error e => .error e
            | .ok (n, rest2) =>
              match readExact n rest2 with
              | none => .error ()
              | some (_, rest3) => decodeBlobHeaderLoop fuel rest3 acc
        else if tag = 3 then
          if wire ≠ 0 then .error ()
          else
            match decodeVarint rest with
            | .error e => .error e
            | .ok (v, rest2) =>
              decodeBlobHeaderLoop fuel rest2 { acc with datasizeBits := v % 4294967296 }
        else
          match skipField fuel wire rest with
          | .error e => .error e
          | .ok rest2 => decodeBlobHeaderLoop fuel rest2 acc

def decodeBlobHeader (s : Bytes) : Except Unit BlobHeaderM :=
  decodeBlobHeaderLoop (s.length + 1) s ⟨[], 0⟩

/-- Modelled from the spec: the `Blob` protobuf message — field 1 `raw`
(bytes), field 2 `raw_size` (int32), field 3 `zlib_data` (bytes); all
optional, unknown fields skipped. -/
structure BlobM where
  raw : Option Bytes
  rawSizeBits : Option Nat
  zlibData : Option Bytes
deriving DecidableEq

def decodeBlobLoop : Nat → Bytes → BlobM → Except Unit BlobM
  | 0, _, _ => .error ()
  | fuel + 1, s, acc =>
    match s with
    | [] => .ok acc
    | _ :: _ =>
      match decodeKey s with
      | .error e => .error e
      | .ok (tag, wire, rest) =>
        if tag = 1 then
          if wire ≠ 2 then .error ()
          else
            match decodeVarint rest with
            | .error e => .error e
            | .ok (n, rest2) =>
              match readExact n rest2 with
              | none => .error ()
              | some (v, rest3) => decodeBlobLoop fuel rest3 { acc with raw := some v }
        else if tag = 2 then
          if wire ≠ 0 then .error ()
          else
            match decodeVarint rest with
            | .error e => .error e
            | .ok (v, rest2) =>
              decodeBlobLoop fuel rest2 { acc with rawSizeBits := some (v % 4294967296) }
        else if tag = 3 then
          if wire ≠ 2 then .error ()
          else
            match decodeVarint rest with
            | .error e => .error e
            | .ok (n, rest2) =>
              match readExact n rest2 with
              | none => .error ()
              | some (v, rest3) => decodeBlobLoop fuel rest3 { acc with zlibData := some v }
        else
          match skipField fuel wire rest with
          | .error e => .error e
          | .ok rest2 => decodeBlobLoop fuel rest2 acc

def decodeBlob (s : Bytes) : Except Unit BlobM :=
  decodeBlobLoop (s.length + 1) s ⟨none, none, none⟩

/-- `NetworkEndian::read_i32` as raw bits: big-endian u32 of the first four
bytes. -/
def beI32Bits : Bytes → Nat
  | b0 :: b1 :: b2 :: b3 :: _ =>
    b0.toNat * 16777216 + b1.toNat * 65536 + b2.toNat * 256 + b3.toNat
  | _ => 0

/-- The `as usize` cast of an `i32` given as raw bits on a 64-bit target:
non-negative values pass through, negative values are sign-extended
(two's complement), e.g. `-1` becomes `2^64 - 1`. -/
def i32BitsAsUsize (u : Nat) : Nat :=
  if u < 2147483648 then u else 18446744073709551616 - 4294967296 + u

/-- UTF-8 bytes of `"OSMHeader"`. -/
def osmHeaderBytes : Bytes := [79, 83, 77, 72, 101, 97, 100, 101, 114]

/-- UTF-8 bytes of `"OSMData"`. -/
def osmDataBytes : Bytes := [79, 83, 77, 68, 97, 116, 97]

/-- One step of `BlockIndexIterator::read_next`: a `BlockIndex` with the new
cursor and remaining stream, an `io::Error` (tagged with whether its kind is
`UnexpectedEof`), or a `panic!`. -/
inductive FrameStep
  | ok (bi : BlockIndex) (c : Nat) (rest : Bytes)
  | err (eof : Bool) (c : Nat) (rest : Bytes)
  | panicked (msg : String)
deriving DecidableEq

/-- Tail of `read_next` for an `OSMData` blob: the `raw_size` assertion
(`assert_eq!`) followed by classification via `from_osmdata_blob`. -/
def classifyData (data : Bytes) (rawSizeBits : Option Nat)
    (blobStart blobLen hlen : Nat) (rest : Bytes) : FrameStep :=
  let expected := match rawSizeBits with
    | some bits => i32BitsAsUsize bits
    | none => data.length
  if data.length ≠ expected then
    .panicked "assertion failed: blob_data.len() == raw_size"
  else
    match fromOsmdataBlob data with
    | .ok bt => .ok ⟨bt, blobStart, blobLen, hlen⟩ (blobStart + blobLen) rest
    | .err => .err false (blobStart + blobLen) rest
    | .panicked m => .panicked m

/-- `BlockIndexIterator::read_next`, over a byte stream with cursor `c`.
The first four bytes are interpreted as a big-endian `i32` and cast to
`usize` with no validation whatsoever; the reader then proceeds to read
exactly that many header bytes.  `inflate` is the external zlib
decompressor (`None` models a decompression failure, an `io::Error` of
non-EOF kind). -/
def readNext (inflate : Bytes → Option Bytes) (c : Nat) (s : Bytes) : FrameStep :=
  if s.length < 4 then .err true c s
  else
    let hlen := i32BitsAsUsize (beI32Bits (s.take 4))
    if (s.drop 4).length < hlen then .err true (c + 4) (s.drop 4)
    else
      match decodeBlobHeader ((s.drop 4).take hlen) with
      | .error _ => .err false (c + 4 + hlen) (s.drop (4 + hlen))
      | .ok bh =>
        let blobStart := c + 4 + hlen
        let blobLen := i32BitsAsUsize bh.datasizeBits
        if bh.type_ = osmHeaderBytes then
          .ok ⟨.header, blobStart, blobLen, hlen⟩ (blobStart + blobLen)
            (s.drop (4 + hlen + blobLen))
        else if bh.type_ = osmDataBytes then
          if (s.drop (4 + hlen)).length < blobLen then .err true blobStart (s.drop (4 + hlen))
          else
            match decodeBlob ((s.drop (4 + hlen)).take blobLen) with
            | .error _ => .err false (blobStart + blobLen) (s.drop (4 + hlen + blobLen))
            | .ok blob =>
              match blob.raw with
              | some data =>
                classifyData data blob.rawSizeBits blobStart blobLen hlen
                  (s.drop (4 + hlen + blobLen))
              | none =>
                match blob.zlibData with
                | some z =>
                  match inflate z with
                  | none => .err false (blobStart + blobLen) (s.drop (4 + hlen + blobLen))
                  | some data =>
                    classifyData data blob.rawSizeBits blobStart blobLen hlen
                      (s.drop (4 + hlen + blobLen))
                | none => .panicked "can only read raw or zlib compressed blob"
        else .panicked "unknown blob type"

/-- `fs.advances n` states that a non-EOF outcome of a frame read leaves a
remaining stream strictly shorter than `n`.  (EOF outcomes stop the iteration
and panics abort, so only `ok` and non-EOF `err` matter for termination.) -/
def FrameStep.advances : FrameStep → Nat → Prop
  | .ok _ _ rest, n => rest.length < n
  | .err false _ rest, n => rest.length < n
  | _, _ => True

theorem classifyData_advances {data : Bytes} {rs : Option Nat} {bs bl hl : Nat}
    {rest : Bytes} {n : Nat} (hr : rest.length < n) :
    (classifyData data rs bs bl hl rest).advances n := by
  unfold classifyData
  dsimp only []
  split
  · trivial
  · split
    · exact hr
    · exact hr
    · trivial

theorem readNext_advances (inflate : Bytes → Option Bytes) (c : Nat) (s : Bytes)
    (h4 : ¬ s.length < 4) : (readNext inflate c s).advances s.length := by
  unfold readNext
  rw [if_neg h4]
  dsimp only []
  split
  · trivial
  · split
    · simp only [FrameStep.advances, List.length_drop]
      omega
    · split
      · simp only [FrameStep.advances, List.length_drop]
        omega
      · split
        · split
          · trivial
          · split
            · simp only [FrameStep.advances, List.length_drop]
              omega
            · split
              · exact classifyData_advances (by simp only [List.length_drop]; omega)
              · split
                · split
                  · simp only [FrameStep.advances, List.length_drop]
                    omega
                  · exact classifyData_advances (by simp only [List.length_drop]; omega)
                · trivial
        · trivial

theorem readNext_ok_rest_lt {inflate : Bytes → Option Bytes} {c : Nat} {s : Bytes}
    {bi : BlockIndex} {c' : Nat} {rest : Bytes}
    (h : readNext inflate c s = .ok bi c' rest) : rest.length < s.length := by
  by_cases h4 : s.length < 4
  · unfold readNext at h
    rw [if_pos h4] at h
    simp at h
  · have ha := readNext_advances inflate c s h4
    rw [h] at ha
    exact ha

theorem readNext_err_false_rest_lt {inflate : Bytes → Option Bytes} {c : Nat} {s : Bytes}
    {c' : Nat} {rest : Bytes}
    (h : readNext inflate c s = .err false c' rest) : rest.length < s.length := by
  by_cases h4 : s.length < 4
  · unfold readNext at h
    rw [if_pos h4] at h
    simp at h
  · have ha := readNext_advances inflate c s h4
    rw [h] at ha
    exact ha

/-- Result of `build_block_index` (and of draining `BlockIndexIterator`):
either the collected list or an unwinding `panic!`.  Per-block `io` errors are
dropped by the `filter_map` in `build_block_index` and never surface, so there
is no error constructor. -/
inductive ScanResult
  | done (l : List BlockIndex)
  | panicked (msg : String)
deriving DecidableEq

/-- The iteration of `BlockIndexIterator::next` composed with the
`filter_map` of `build_block_index`: an `UnexpectedEof` from `read_next`
stops the iteration cleanly (wherever it occurs), any other error drops the
block and continues, and a successful frame is collected.  `fuel` bounds the
recursion; each non-terminal step strictly shortens the stream
(`readNext_ok_rest_lt`, `readNext_err_false_rest_lt`), so any fuel exceeding
the stream length gives the same result (`scanFuel_congr`). -/
def scanFuel (inflate : Bytes → Option Bytes) : Nat → Nat → Bytes → ScanResult
  | 0, _, _ => .panicked "out of fuel"
  | fuel + 1, c, s =>
    match readNext inflate c s with
    | .ok bi c' rest =>
      match scanFuel inflate fuel c' rest with
      | .done l => .done (bi :: l)
      | .panicked m => .panicked m
    | .err true _ _ => .done []
    | .err false c' rest => scanFuel inflate fuel c' rest
    | .panicked m => .panicked m

def scanAux (inflate : Bytes → Option Bytes) (c : Nat) (s : Bytes) : ScanResult :=
  scanFuel inflate (s.length + 1) c s

theorem scanFuel_congr (inflate : Bytes → Option Bytes) :
    ∀ (f1 : Nat) {f2 c : Nat} {s : Bytes}, s.length < f1 → s.length < f2 →
      scanFuel inflate f1 c s = scanFuel inflate f2 c s := by
  intro f1
  induction f1 with
  | zero => intro f2 c s h1 _; omega
  | succ a ih =>
    intro f2 c s h1 h2
    cases f2 with
    | zero => omega
    | succ b =>
      show scanFuel inflate (a + 1) c s = scanFuel inflate (b + 1) c s
      unfold scanFuel
      cases hr : readNext inflate c s with
      | ok bi c' rest =>
        have hlt := readNext_ok_rest_lt hr
        dsimp only []
        have hrec : scanFuel inflate a c' rest = scanFuel inflate b c' rest :=
          ih (by omega) (by omega)
        rw [hrec]
      | err eof c' rest =>
        cases eof with
        | true => rfl
        | false =>
          have hlt := readNext_err_false_rest_lt hr
          dsimp only []
          exact ih (by omega) (by omega)
      | panicked m => rfl

/-- `build_block_index`: collect all readable block indices, then sort by the
derived lexicographic order.  (The sort is modelled by insertion sort; the
sortedness statements proved below depend only on the order.) -/
def buildBlockIndex (inflate : Bytes → Option Bytes) (s : Bytes) : ScanResult :=
  match scanAux inflate 0 s with
  | .done l => .done (l.insertionSort biLeP)
  | .panicked m => .panicked m

/-- The index list of a scan outcome (empty if the scan panicked). -/
def ScanResult.indices : ScanResult → List BlockIndex
  | .done l => l
  | .panicked _ => []

theorem biLe_iff {a b : BlockIndex} : biLe a b = true ↔
    (a.block_type.rank < b.block_type.rank
     ∨ (a.block_type.rank = b.block_type.rank ∧ (a.blob_start < b.blob_start
       ∨ (a.blob_start = b.blob_start ∧ (a.blob_len < b.blob_len
         ∨ (a.blob_len = b.blob_len ∧ a.blob_header_len ≤ b.blob_header_len)))))) := by
  unfold biLe
  split_ifs <;> simp <;> omega

instance : IsTotal BlockIndex biLeP :=
  ⟨by
    intro a b
    unfold biLeP
    rw [biLe_iff, biLe_iff]
    omega⟩

instance : IsTrans BlockIndex biLeP :=
  ⟨by
    intro a b c h1 h2
    unfold biLeP at h1 h2 ⊢
    rw [biLe_iff] at h1 h2 ⊢
    omega⟩

/-- C5: the list returned by `build_block_index` is non-decreasing under the
derived lexicographic order on `BlockIndex` — comparing `(block_type,
blob_start, blob_len, blob_header_len)` with `BlockType` in declaration order
Header < Nodes < DenseNodes < Ways < Relations — and consequently all Header
entries precede all Nodes entries, which precede DenseNodes, then Ways, then
Relations. -/
theorem C5_block_index_sorted (inflate : Bytes → Option Bytes) (s : Bytes) :
    ((buildBlockIndex inflate s).indices).Pairwise biLeP
    ∧ ((buildBlockIndex inflate s).indices).Pairwise
        (fun a b => a.block_type.rank ≤ b.block_type.rank) := by
  have hmain : ((buildBlockIndex inflate s).indices).Pairwise biLeP := by
    unfold buildBlockIndex
    cases scanAux inflate 0 s with
    | done l => exact List.sorted_insertionSort biLeP l
    | panicked m => exact List.Pairwise.nil
  refine ⟨hmain, ?_⟩
  refine hmain.imp ?_
  intro a b hab
  unfold biLeP at hab
  rw [biLe_iff] at hab
  omega

/-- C6 counterexample: an EOF *inside* a frame (the 4-byte length read
succeeded and declared a 5-byte header, but only 2 bytes remain) terminates
the iteration normally — `build_block_index` returns `Ok([])` — instead of
being a hard error, refuting "only end-of-file at a frame boundary terminates
the iteration normally". -/
theorem C6_cex_eof_inside_frame :
    readNext (fun _ => none) 0 [0, 0, 0, 5, 1, 2] = FrameStep.err true 4 [1, 2]
    ∧ buildBlockIndex (fun _ => none) [0, 0, 0, 5, 1, 2] = ScanResult.done [] := by
  exact ⟨by decide, by decide⟩

/-- C6 (amended): during index construction every per-block decode failure
other than EOF (`read_next` returning a non-EOF `io` error, e.g. a protobuf
or decompression failure in one frame) causes that block to be dropped while
the scan continues with the following frames and still returns `Ok` with the
remaining indices; and *any* `UnexpectedEof` — whether at a frame boundary or
inside a frame — terminates the iteration normally.  Concretely, a stream
whose first frame has a corrupt `BlobHeader` followed by a valid `OSMHeader`
frame yields exactly the index of the second frame. -/
theorem C6_error_policy :
    (∀ (inflate : Bytes → Option Bytes) (c : Nat) (s : Bytes) (c' : Nat) (rest : Bytes),
      readNext inflate c s = FrameStep.err false c' rest →
        scanAux inflate c s = scanAux inflate c' rest)
    ∧ (∀ (inflate : Bytes → Option Bytes) (c : Nat) (s : Bytes) (c' : Nat)
        (rest : Bytes), readNext inflate c s = FrameStep.err true c' rest →
        scanAux inflate c s = ScanResult.done [])
    ∧ buildBlockIndex (fun _ => none)
        ([0, 0, 0, 1, 255] ++ [0, 0, 0, 13] ++ [10, 9, 79, 83, 77, 72, 101, 97, 100, 101, 114, 24, 0])
        = ScanResult.done [⟨BlockType.header, 22, 0, 13⟩] := by
  refine ⟨?_, ?_, by decide⟩
  · intro inflate c s c' rest h
    have hlt := readNext_err_false_rest_lt h
    have hgoal : scanFuel inflate s.length c' rest
        = scanFuel inflate (rest.length + 1) c' rest :=
      scanFuel_congr inflate s.length (by omega) (by omega)
    unfold scanAux
    unfold scanFuel
    rw [h]
    dsimp only []
    exact hgoal
  · intro inflate c s c' rest h
    unfold scanAux scanFuel
    rw [h]

/-- C6 witness: the amended theorem applied to the corrupt-header frame and
to the truncated-header frame. -/
theorem C6_error_policy_witness :
    scanAux (fun _ => none)
        0 ([0, 0, 0, 1, 255] ++ [0, 0, 0, 13] ++ [10, 9, 79, 83, 77, 72, 101, 97, 100, 101, 114, 24, 0])
      = scanAux (fun _ => none)
        5 ([0, 0, 0, 13] ++ [10, 9, 79, 83, 77, 72, 101, 97, 100, 101, 114, 24, 0])
    ∧ scanAux (fun _ => none) 0 [0, 0, 0, 5, 1, 2] = ScanResult.done [] :=
  ⟨C6_error_policy.1 (fun _ => none) 0 _ 5 _ (by decide),
   C6_error_policy.2.1 (fun _ => none) 0 [0, 0, 0, 5, 1, 2] 4 [1, 2] (by decide)⟩

/-! ## Ordered parallel pipeline (src/parallel.rs)

`parallel_process` is concurrent, so it is embedded as a small-step transition
relation over an explicit state.  The model follows the source line by line:

  * the spawn loop (`for _ in 0..num_threads { create_thread_context()?;
    rayon::spawn(...) }`) is the `spawning` phase — each successful context
    creation spawns one more worker (`spawnOk`), a failing one returns the
    error (`spawnErr`, phase `failed`), and when all `W` are spawned the
    driver drops its sender and enters the receive loop (`spawnDone`, phase
    `running`);
  * a worker is either idle or holding one item taken (under the iterator
    mutex, hence in input order) from the `enumerate`d iterator — `idle`
    counts the former, `holding` the latter, so `idle + card holding` equals
    the number of spawned workers;
  * `send` requires the admission cursor (`next`, here `adm`, initialised to
    `2 * W`) to exceed the item's index (the condvar wait loop) and the
    bounded channel (`sync_channel(2 * W)`) to have room;
  * the driver receives into the `BTreeMap` reorder buffer (`pending`) and
    drains it in ascending index order, incrementing the admission cursor
    before each `consume` call (`drain`).

Workers keep running while the driver is still spawning (or after it has
returned an error), so `take`/`send` are not phase-guarded; `recv`/`drain`
happen on the driver thread and require the `running` phase.  The producer is
modelled as a pure function of the item, as in the claims; `produced` counts
its invocations. -/

inductive Phase (E : Type)
  | spawning
  | running
  | failed (e : E)

structure PipeState (E Item Data : Type) where
  phase : Phase E
  spawned : Nat
  idle : Nat
  remaining : List (Nat × Item)
  holding : Multiset (Nat × Item)
  chan : List (Nat × Data)
  pending : Multiset (Nat × Data)
  consumed : List Data
  nextIdx : Nat
  adm : Nat
  produced : Nat

/-- The state of `parallel_process` just before the spawn loop. -/
def pipeInit (E Item Data : Type) (xs : List Item) (W : Nat) : PipeState E Item Data :=
  ⟨.spawning, 0, 0, xs.enum, 0, [], 0, [], 0, 2 * W, 0⟩

/-- Small-step transitions of `parallel_process` with worker-pool size `W`,
thread-context factory `factory` and producer `f`. -/
inductive Step {E C Item Data : Type} (factory : Nat → Except E C) (f : Item → Data)
    (W : Nat) : PipeState E Item Data → PipeState E Item Data → Prop
  | spawnOk (s : PipeState E Item Data) (c : C) :
      s.phase = .spawning → s.spawned < W → factory s.spawned = .ok c →
      Step factory f W s { s with spawned := s.spawned + 1, idle := s.idle + 1 }
  | spawnErr (s : PipeState E Item Data) (e : E) :
      s.phase = .spawning → s.spawned < W → factory s.spawned = .error e →
      Step factory f W s { s with phase := .failed e }
  | spawnDone (s : PipeState E Item Data) :
      s.phase = .spawning → s.spawned = W →
      Step factory f W s { s with phase := .running }
  | take (s : PipeState E Item Data) (p : Nat × Item) (rem : List (Nat × Item)) :
      0 < s.idle → s.remaining = p :: rem →
      Step factory f W s { s with idle := s.idle - 1, remaining := rem,
                                  holding := p ::ₘ s.holding }
  | send (s : PipeState E Item Data) (p : Nat × Item) (hld : Multiset (Nat × Item)) :
      s.holding = p ::ₘ hld → p.1 < s.adm → s.chan.length < 2 * W →
      Step factory f W s { s with holding := hld, idle := s.idle + 1,
                                  chan := s.chan ++ [(p.1, f p.2)],
                                  produced := s.produced + 1 }
  | recv (s : PipeState E Item Data) (q : Nat × Data) (ch : List (Nat × Data)) :
      s.phase = .running → s.chan = q :: ch →
      Step factory f W s { s with chan := ch, pending := q ::ₘ s.pending }
  | drain (s : PipeState E Item Data) (d : Data) (pd : Multiset (Nat × Data)) :
      s.phase = .running → s.pending = (s.nextIdx, d) ::ₘ pd →
      Step factory f W s { s with pending := pd,
                                  consumed := s.consumed ++ [d],
                                  nextIdx := s.nextIdx + 1,
                                  adm := s.adm + 1 }

/-- A state of `parallel_process` reachable from the initial state. -/
def Reachable {E C Item Data : Type} (factory : Nat → Except E C) (f : Item → Data)
    (W : Nat) (xs : List Item) (s : PipeState E Item Data) : Prop :=
  Relation.ReflTransGen (Step factory f W) (pipeInit E Item Data xs W) s

/-- The configuration in which `parallel_process` returns `Ok(())`: the spawn
loop completed, the iterator is exhausted, every worker has exited its loop
(none holds an item), and the channel and the reorder buffer have been fully
drained. -/
def okReturn {E Item Data : Type} (s : PipeState E Item Data) : Prop :=
  s.phase = Phase.running ∧ s.remaining = [] ∧ s.holding = 0 ∧ s.chan = [] ∧ s.pending = 0

/-- The number of items taken from the input iterator but not yet passed to
the consumer: held by workers, buffered in the channel, or in the reorder
buffer. -/
def inFlight {E Item Data : Type} (s : PipeState E Item Data) : Nat :=
  Multiset.card s.holding + s.chan.length + Multiset.card s.pending

/-- Inductive invariant of the pipeline. -/
structure PipeInv {E C Item Data : Type} (factory : Nat → Except E C) (f : Item → Data)
    (W : Nat) (xs : List Item) (s : PipeState E Item Data) : Prop where
  idle_holding : s.idle + Multiset.card s.holding = s.spawned
  spawned_le : s.spawned ≤ W
  spawn_ok : ∀ j, j < s.spawned → (factory j).isOk
  failed_spec : ∀ e, s.phase = Phase.failed e → factory s.spawned = .error e
  notRunning_nextIdx : s.phase ≠ Phase.running → s.nextIdx = 0
  adm_eq : s.adm = 2 * W + s.nextIdx
  consumed_eq : s.consumed = (xs.take s.nextIdx).map f
  rem_spec : ∀ p ∈ s.remaining, xs[p.1]? = some p.2
  hold_spec : ∀ p ∈ s.holding, xs[p.1]? = some p.2
  chan_spec : ∀ q ∈ s.chan, (xs[q.1]?).map f = some q.2
  pend_spec : ∀ q ∈ s.pending, (xs[q.1]?).map f = some q.2
  chan_lt : ∀ q ∈ s.chan, q.1 < s.adm
  pend_lt : ∀ q ∈ s.pending, q.1 < s.adm
  produced_eq : s.produced + s.remaining.length + Multiset.card s.holding = xs.length
  partition : (↑(s.remaining.map Prod.fst) : Multiset Nat) + s.holding.map Prod.fst
      + ↑(s.chan.map Prod.fst) + s.pending.map Prod.fst + Multiset.range s.nextIdx
      = Multiset.range xs.length

theorem pipeInv_init {E C Item Data : Type} (factory : Nat → Except E C) (f : Item → Data)
    (W : Nat) (xs : List Item) : PipeInv factory f W xs (pipeInit E Item Data xs W) := by
  refine ⟨?_, ?_, ?_, ?_, ?_, ?_, ?_, ?_, ?_, ?_, ?_, ?_, ?_, ?_, ?_⟩ <;>
    dsimp only [pipeInit]
  · simp
  · exact Nat.zero_le W
  · intro j hj
    exact absurd hj (Nat.not_lt_zero j)
  · intro e he
    exact Phase.noConfusion he
  · intro _
    rfl
  · rfl
  · rfl
  · intro p hp
    exact List.mk_mem_enum_iff_getElem?.mp (by simpa using hp)
  · intro q hq
    exact absurd hq (Multiset.not_mem_zero q)
  · intro q hq
    exact absurd hq (List.not_mem_nil q)
  · intro q hq
    exact absurd hq (Multiset.not_mem_zero q)
  · intro q hq
    exact absurd hq (List.not_mem_nil q)
  · intro q hq
    exact absurd hq (Multiset.not_mem_zero q)
  · simp [List.enum_length]
  · simp [List.enum_map_fst]
    rw [Multiset.coe_range]

theorem pipeInv_step {E C Item Data : Type} {factory : Nat → Except E C} {f : Item → Data}
    {W : Nat} {xs : List Item} {s t : PipeState E Item Data}
    (inv : PipeInv factory f W xs s) (hst : Step factory f W s t) :
    PipeInv factory f W xs t := by
  obtain ⟨i1, i2, i3, i4, i5, i6, i7, i8, i9, i10, i11, i12, i13, i14, i15⟩ := inv
  cases hst with
  | spawnOk c h1 h2 h3 =>
    refine ⟨?_, ?_, ?_, ?_, ?_, ?_, ?_, ?_, ?_, ?_, ?_, ?_, ?_, ?_, ?_⟩ <;> dsimp only []
    · omega
    · omega
    · intro j hj
      rcases Nat.lt_succ_iff_lt_or_eq.mp hj with h | h
      · exact i3 j h
      · subst h
        rw [h3]
        rfl
    · intro e he
      rw [h1] at he
      exact Phase.noConfusion he
    · intro _
      exact i5 (by rw [h1]; intro hcon; exact Phase.noConfusion hcon)
    · exact i6
    · exact i7
    · exact i8
    · exact i9
    · exact i10
    · exact i11
    · exact i12
    · exact i13
    · exact i14
    · exact i15
  | spawnErr e h1 h2 h3 =>
    refine ⟨?_, ?_, ?_, ?_, ?_, ?_, ?_, ?_, ?_, ?_, ?_, ?_, ?_, ?_, ?_⟩ <;> dsimp only []
    · exact i1
    · exact i2
    · exact i3
    · intro e' he
      injection he with hee
      subst hee
      exact h3
    · intro _
      exact i5 (by rw [h1]; intro hcon; exact Phase.noConfusion hcon)
    · exact i6
    · exact i7
    · exact i8
    · exact i9
    · exact i10
    · exact i11
    · exact i12
    · exact i13
    · exact i14
    · exact i15
  | spawnDone h1 h2 =>
    refine ⟨?_, ?_, ?_, ?_, ?_, ?_, ?_, ?_, ?_, ?_, ?_, ?_, ?_, ?_, ?_⟩ <;> dsimp only []
    · exact i1
    · exact i2
    · exact i3
    · intro e he
      exact Phase.noConfusion he
    · intro hne
      exact absurd rfl hne
    · exact i6
    · exact i7
    · exact i8
    · exact i9
    · exact i10
    · exact i11
    · exact i12
    · exact i13
    · exact i14
    · exact i15
  | take p rem h1 h2 =>
    refine ⟨?_, ?_, ?_, ?_, ?_, ?_, ?_, ?_, ?_, ?_, ?_, ?_, ?_, ?_, ?_⟩ <;> dsimp only []
    · rw [Multiset.card_cons]
      omega
    · exact i2
    · exact i3
    · intro e he
      exact i4 e he
    · exact i5
    · exact i6
    · exact i7
    · intro q hq
      exact i8 q (by rw [h2]; exact List.mem_cons_of_mem p hq)
    · intro q hq
      rcases Multiset.mem_cons.mp hq with h | h
      · rw [h]
        exact i8 p (by rw [h2]; exact List.mem_cons_self p rem)
      · exact i9 q h
    · exact i10
    · exact i11
    · exact i12
    · exact i13
    · have h14 := i14
      rw [h2] at h14
      rw [Multiset.card_cons]
      simp only [List.length_cons] at h14
      omega
    · have hp := i15
      rw [h2] at hp
      simp only [List.map_cons] at hp
      rw [← Multiset.cons_coe] at hp
      rw [Multiset.map_cons]
      rw [← hp]
      simp only [← Multiset.singleton_add]
      abel
  | send p hld h1 h2 h3 =>
    have hc : Multiset.card s.holding = Multiset.card hld + 1 := by
      rw [h1, Multiset.card_cons]
    refine ⟨?_, ?_, ?_, ?_, ?_, ?_, ?_, ?_, ?_, ?_, ?_, ?_, ?_, ?_, ?_⟩ <;> dsimp only []
    · omega
    · exact i2
    · exact i3
    · intro e he
      exact i4 e he
    · exact i5
    · exact i6
    · exact i7
    · exact i8
    · intro q hq
      exact i9 q (by rw [h1]; exact Multiset.mem_cons_of_mem hq)
    · intro q hq
      rcases List.mem_append.mp hq with h | h
      · exact i10 q h
      · rcases List.mem_singleton.mp h with rfl
        have hx := i9 p (by rw [h1]; exact Multiset.mem_cons_self p hld)
        rw [hx]
        rfl
    · exact i11
    · intro q hq
      rcases List.mem_append.mp hq with h | h
      · exact i12 q h
      · rcases List.mem_singleton.mp h with rfl
        exact h2
    · exact i13
    · omega
    · have hp := i15
      rw [h1, Multiset.map_cons] at hp
      simp only [List.map_append, List.map_cons, List.map_nil]
      rw [← Multiset.coe_add, Multiset.coe_singleton]
      rw [← hp]
      simp only [← Multiset.singleton_add]
      abel
  | recv q ch h1 h2 =>
    refine ⟨?_, ?_, ?_, ?_, ?_, ?_, ?_, ?_, ?_, ?_, ?_, ?_, ?_, ?_, ?_⟩ <;> dsimp only []
    · exact i1
    · exact i2
    · exact i3
    · intro e he
      exact i4 e he
    · exact i5
    · exact i6
    · exact i7
    · exact i8
    · exact i9
    · intro q' hq'
      exact i10 q' (by rw [h2]; exact List.mem_cons_of_mem q hq')
    · intro q' hq'
      rcases Multiset.mem_cons.mp hq' with h | h
      · rw [h]
        exact i10 q (by rw [h2]; exact List.mem_cons_self q ch)
      · exact i11 q' h
    · intro q' hq'
      exact i12 q' (by rw [h2]; exact List.mem_cons_of_mem q hq')
    · intro q' hq'
      rcases Multiset.mem_cons.mp hq' with h | h
      · rw [h]
        exact i12 q (by rw [h2]; exact List.mem_cons_self q ch)
      · exact i13 q' h
    · exact i14
    · have hp := i15
      rw [h2] at hp
      simp only [List.map_cons] at hp
      rw [← Multiset.cons_coe] at hp
      rw [Multiset.map_cons]
      rw [← hp]
      simp only [← Multiset.singleton_add]
      abel
  | drain d pd h1 h2 =>
    refine ⟨?_, ?_, ?_, ?_, ?_, ?_, ?_, ?_, ?_, ?_, ?_, ?_, ?_, ?_, ?_⟩ <;> dsimp only []
    · exact i1
    · exact i2
    · exact i3
    · intro e he
      rw [h1] at he
      exact Phase.noConfusion he
    · intro hne
      rw [h1] at hne
      exact absurd rfl hne
    · omega
    · have hd := i11 (s.nextIdx, d) (by rw [h2]; exact Multiset.mem_cons_self _ _)
      rcases Option.map_eq_some'.mp hd with ⟨x, hx, hfx⟩
      rw [i7, List.take_succ, hx]
      simp [hfx]
    · exact i8
    · exact i9
    · exact i10
    · intro q hq
      exact i11 q (by rw [h2]; exact Multiset.mem_cons_of_mem hq)
    · intro q hq
      have := i12 q hq
      omega
    · intro q hq
      have := i13 q (by rw [h2]; exact Multiset.mem_cons_of_mem hq)
      omega
    · exact i14
    · have hp := i15
      rw [h2, Multiset.map_cons] at hp
      rw [Multiset.range_succ]
      rw [← hp]
      simp only [← Multiset.singleton_add]
      abel

theorem pipeInv_reachable {E C Item Data : Type} {factory : Nat → Except E C}
    {f : Item → Data} {W : Nat} {xs : List Item} {s : PipeState E Item Data}
    (h : Reachable factory f W xs s) : PipeInv factory f W xs s := by
  unfold Reachable at h
  induction h with
  | refl => exact pipeInv_init factory f W xs
  | tail _ hstep ih => exact pipeInv_step ih hstep

/-- C1: in every reachable state of `parallel_process` the consumer has been
invoked exactly on the produced images of the first `nextIdx` input items, in
input order — so at every point of the run the consumed sequence is a prefix
of `producer(x_0), producer(x_1), …` — and in any state in which the call
returns `Ok(())` the consumer has been invoked exactly once per input item,
with `producer(x_0), …, producer(x_n)` in exactly that order. -/
theorem C1_pipeline_order {E C Item Data : Type} (factory : Nat → Except E C)
    (f : Item → Data) (W : Nat) (xs : List Item) (s : PipeState E Item Data)
    (h : Reachable factory f W xs s) :
    s.consumed = (xs.take s.nextIdx).map f
    ∧ List.IsPrefix s.consumed (xs.map f)
    ∧ (okReturn s → s.consumed = xs.map f) := by
  have inv := pipeInv_reachable h
  refine ⟨inv.consumed_eq, ?_, ?_⟩
  · rw [inv.consumed_eq, List.map_take]
    exact List.take_prefix _ _
  · intro hok
    obtain ⟨hph, hrem, hhold, hchan, hpend⟩ := hok
    have hp := inv.partition
    rw [hrem, hhold, hchan, hpend] at hp
    simp at hp
    have hcard := congrArg Multiset.card hp
    simp [Multiset.card_range] at hcard
    rw [inv.consumed_eq, hcard]
    simp

/-- C1 witness: a complete one-item run, reached by an explicit trace
(spawn, done, take, produce+send, receive, drain), ends in the `Ok`
configuration with the consumer having seen exactly `[producer x0]`. -/
theorem C1_pipeline_order_witness :
    okReturn (⟨.running, 1, 1, [], 0, [], 0, [()], 1, 3, 1⟩ : PipeState Unit Unit Unit)
    ∧ (⟨.running, 1, 1, [], 0, [], 0, [()], 1, 3, 1⟩ : PipeState Unit Unit Unit).consumed
        = ([()] : List Unit).map id := by
  have t1 : Step (fun _ => Except.ok ()) (id : Unit → Unit) 1
      (pipeInit Unit Unit Unit [()] 1)
      (⟨.spawning, 1, 1, [(0, ())], 0, [], 0, [], 0, 2, 0⟩ : PipeState Unit Unit Unit) :=
    Step.spawnOk _ () rfl (by decide) rfl
  have t2 : Step (fun _ => Except.ok ()) (id : Unit → Unit) 1
      (⟨.spawning, 1, 1, [(0, ())], 0, [], 0, [], 0, 2, 0⟩ : PipeState Unit Unit Unit)
      (⟨.running, 1, 1, [(0, ())], 0, [], 0, [], 0, 2, 0⟩ : PipeState Unit Unit Unit) :=
    Step.spawnDone _ rfl rfl
  have t3 : Step (fun _ => Except.ok ()) (id : Unit → Unit) 1
      (⟨.running, 1, 1, [(0, ())], 0, [], 0, [], 0, 2, 0⟩ : PipeState Unit Unit Unit)
      (⟨.running, 1, 0, [], (0, ()) ::ₘ 0, [], 0, [], 0, 2, 0⟩ : PipeState Unit Unit Unit) :=
    Step.take _ (0, ()) [] (by decide) rfl
  have t4 : Step (fun _ => Except.ok ()) (id : Unit → Unit) 1
      (⟨.running, 1, 0, [], (0, ()) ::ₘ 0, [], 0, [], 0, 2, 0⟩ : PipeState Unit Unit Unit)
      (⟨.running, 1, 1, [], 0, [(0, ())], 0, [], 0, 2, 1⟩ : PipeState Unit Unit Unit) :=
    Step.send _ (0, ()) 0 rfl (by decide) (by decide)
  have t5 : Step (fun _ => Except.ok ()) (id : Unit → Unit) 1
      (⟨.running, 1, 1, [], 0, [(0, ())], 0, [], 0, 2, 1⟩ : PipeState Unit Unit Unit)
      (⟨.running, 1, 1, [], 0, [], (0, ()) ::ₘ 0, [], 0, 2, 1⟩ : PipeState Unit Unit Unit) :=
    Step.recv _ (0, ()) [] rfl rfl
  have t6 : Step (fun _ => Except.ok ()) (id : Unit → Unit) 1
      (⟨.running, 1, 1, [], 0, [], (0, ()) ::ₘ 0, [], 0, 2, 1⟩ : PipeState Unit Unit Unit)
      (⟨.running, 1, 1, [], 0, [], 0, [()], 1, 3, 1⟩ : PipeState Unit Unit Unit) :=
    Step.drain _ () 0 rfl rfl
  have hreach : Reachable (fun _ => Except.ok ()) (id : Unit → Unit) 1 [()]
      (⟨.running, 1, 1, [], 0, [], 0, [()], 1, 3, 1⟩ : PipeState Unit Unit Unit) :=
    (((((Relation.ReflTransGen.refl.tail t1).tail t2).tail t3).tail t4).tail t5).tail t6
  have hok : okReturn (⟨.running, 1, 1, [], 0, [], 0, [()], 1, 3, 1⟩ : PipeState Unit Unit Unit) :=
    ⟨rfl, rfl, rfl, rfl, rfl⟩
  exact ⟨hok, (C1_pipeline_order (fun _ => Except.ok ()) id 1 [()] _ hreach).2.2 hok⟩

/-- C8 counterexample: with `W = 1` the single worker fills the channel with
items 0 and 1 (admission cursor starts at `2·W = 2`) and then takes item 2
from the iterator before blocking on the condition variable, while the driver
has not yet consumed anything: three items are in flight, exceeding `2·W = 2`.
The claimed bound `2·W` is therefore wrong; the code's bound is `2·W + W`. -/
theorem C8_cex_window_exceeded :
    Reachable (fun _ => Except.ok ()) (id : Unit → Unit) 1 [(), (), ()]
      (⟨.running, 1, 0, [], (2, ()) ::ₘ 0, [(0, ()), (1, ())], 0, [], 0, 2, 2⟩
        : PipeState Unit Unit Unit)
    ∧ inFlight (⟨.running, 1, 0, [], (2, ()) ::ₘ 0, [(0, ()), (1, ())], 0, [], 0, 2, 2⟩
        : PipeState Unit Unit Unit) = 3
    ∧ ¬ (inFlight (⟨.running, 1, 0, [], (2, ()) ::ₘ 0, [(0, ()), (1, ())], 0, [], 0, 2, 2⟩
        : PipeState Unit Unit Unit) ≤ 2 * 1) := by
  have t1 : Step (fun _ => Except.ok ()) (id : Unit → Unit) 1
      (pipeInit Unit Unit Unit [(), (), ()] 1)
      (⟨.spawning, 1, 1, [(0, ()), (1, ()), (2, ())], 0, [], 0, [], 0, 2, 0⟩
        : PipeState Unit Unit Unit) :=
    Step.spawnOk _ () rfl (by decide) rfl
  have t2 : Step (fun _ => Except.ok ()) (id : Unit → Unit) 1
      (⟨.spawning, 1, 1, [(0, ()), (1, ()), (2, ())], 0, [], 0, [], 0, 2, 0⟩
        : PipeState Unit Unit Unit)
      (⟨.running, 1, 1, [(0, ()), (1, ()), (2, ())], 0, [], 0, [], 0, 2, 0⟩
        : PipeState Unit Unit Unit) :=
    Step.spawnDone _ rfl rfl
  have t3 : Step (fun _ => Except.ok ()) (id : Unit → Unit) 1
      (⟨.running, 1, 1, [(0, ()), (1, ()), (2, ())], 0, [], 0, [], 0, 2, 0⟩
        : PipeState Unit Unit Unit)
      (⟨.running, 1, 0, [(1, ()), (2, ())], (0, ()) ::ₘ 0, [], 0, [], 0, 2, 0⟩
        : PipeState Unit Unit Unit) :=
    Step.take _ (0, ()) [(1, ()), (2, ())] (by decide) rfl
  have t4 : Step (fun _ => Except.ok ()) (id : Unit → Unit) 1
      (⟨.running, 1, 0, [(1, ()), (2, ())], (0, ()) ::ₘ 0, [], 0, [], 0, 2, 0⟩
        : PipeState Unit Unit Unit)
      (⟨.running, 1, 1, [(1, ()), (2, ())], 0, [(0, ())], 0, [], 0, 2, 1⟩
        : PipeState Unit Unit Unit) :=
    Step.send _ (0, ()) 0 rfl (by decide) (by decide)
  have t5 : Step (fun _ => Except.ok ()) (id : Unit → Unit) 1
      (⟨.running, 1, 1, [(1, ()), (2, ())], 0, [(0, ())], 0, [], 0, 2, 1⟩
        : PipeState Unit Unit Unit)
      (⟨.running, 1, 0, [(2, ())], (1, ()) ::ₘ 0, [(0, ())], 0, [], 0, 2, 1⟩
        : PipeState Unit Unit Unit) :=
    Step.take _ (1, ()) [(2, ())] (by decide) rfl
  have t6 : Step (fun _ => Except.ok ()) (id : Unit → Unit) 1
      (⟨.running, 1, 0, [(2, ())], (1, ()) ::ₘ 0, [(0, ())], 0, [], 0, 2, 1⟩
        : PipeState Unit Unit Unit)
      (⟨.running, 1, 1, [(2, ())], 0, [(0, ()), (1, ())], 0, [], 0, 2, 2⟩
        : PipeState Unit Unit Unit) :=
    Step.send _ (1, ()) 0 rfl (by decide) (by decide)
  have t7 : Step (fun _ => Except.ok ()) (id : Unit → Unit) 1
      (⟨.running, 1, 1, [(2, ())], 0, [(0, ()), (1, ())], 0, [], 0, 2, 2⟩
        : PipeState Unit Unit Unit)
      (⟨.running, 1, 0, [], (2, ()) ::ₘ 0, [(0, ()), (1, ())], 0, [], 0, 2, 2⟩
        : PipeState Unit Unit Unit) :=
    Step.take _ (2, ()) [] (by decide) rfl
  refine ⟨((((((Relation.ReflTransGen.refl.tail t1).tail t2).tail t3).tail t4).tail
    t5).tail t6).tail t7, ?_, ?_⟩
  · simp [inFlight]
  · simp [inFlight]

/-- C8 (amended): at every instant of a run of `parallel_process` with
worker-pool size `W`, the number of items taken from the input iterator but
not yet passed to the consumer is at most `2·W + W`: at most `2·W` items sent
but not yet consumed (admission cursor plus bounded channel), plus at most one
item held by each of the at most `W` workers. -/
theorem C8_pipeline_window {E C Item Data : Type} (factory : Nat → Except E C)
    (f : Item → Data) (W : Nat) (xs : List Item) (s : PipeState E Item Data)
    (h : Reachable factory f W xs s) : inFlight s ≤ 2 * W + W := by
  have inv := pipeInv_reachable h
  have hhold : Multiset.card s.holding ≤ W := by
    have h1 := inv.idle_holding
    have h2 := inv.spawned_le
    omega
  set cp : Multiset Nat := (↑(s.chan.map Prod.fst) : Multiset Nat) + s.pending.map Prod.fst
    with hcp
  have hle : cp ≤ Multiset.range xs.length := by
    refine Multiset.le_iff_exists_add.mpr
      ⟨(↑(s.remaining.map Prod.fst) : Multiset Nat) + s.holding.map Prod.fst
        + Multiset.range s.nextIdx, ?_⟩
    rw [← inv.partition, hcp]
    abel
  have hnodup : cp.Nodup := Multiset.nodup_of_le hle (Multiset.nodup_range _)
  have hmemchar : ∀ a ∈ cp, s.nextIdx ≤ a ∧ a < s.adm := by
    intro a ha
    constructor
    · by_contra hcon
      push_neg at hcon
      have h1 : a ∈ Multiset.range s.nextIdx := Multiset.mem_range.mpr hcon
      have hcount : Multiset.count a (Multiset.range xs.length) ≤ 1 :=
        Multiset.nodup_iff_count_le_one.mp (Multiset.nodup_range _) a
      rw [← inv.partition] at hcount
      have hc1 : 1 ≤ Multiset.count a cp := Multiset.one_le_count_iff_mem.mpr ha
      have hc2 : 1 ≤ Multiset.count a (Multiset.range s.nextIdx) :=
        Multiset.one_le_count_iff_mem.mpr h1
      rw [hcp] at hc1
      simp only [Multiset.count_add] at hcount hc1
      omega
    · rcases Multiset.mem_add.mp ha with hmem | hmem
      · rw [Multiset.mem_coe] at hmem
        rcases List.mem_map.mp hmem with ⟨q, hq, hfq⟩
        rw [← hfq]
        exact inv.chan_lt q hq
      · rcases Multiset.mem_map.mp hmem with ⟨q, hq, hfq⟩
        rw [← hfq]
        exact inv.pend_lt q hq
  have hico : cp ≤ (Finset.Ico s.nextIdx s.adm).val := by
    rw [Multiset.le_iff_count]
    intro a
    by_cases ha : a ∈ cp
    · have c1 : Multiset.count a cp ≤ 1 := Multiset.nodup_iff_count_le_one.mp hnodup a
      have c2 : Multiset.count a (Finset.Ico s.nextIdx s.adm).val = 1 :=
        Multiset.count_eq_one_of_mem (Finset.Ico s.nextIdx s.adm).nodup
          (Finset.mem_val.mpr (Finset.mem_Ico.mpr ⟨(hmemchar a ha).1, (hmemchar a ha).2⟩))
      omega
    · rw [Multiset.count_eq_zero_of_not_mem ha]
      omega
  have hcards : Multiset.card cp ≤ s.adm - s.nextIdx := by
    have h1 := Multiset.card_le_card hico
    have h2 : Multiset.card (Finset.Ico s.nextIdx s.adm).val
        = (Finset.Ico s.nextIdx s.adm).card := rfl
    rw [h2, Nat.card_Ico] at h1
    exact h1
  have hcpcard : Multiset.card cp = s.chan.length + Multiset.card s.pending := by
    rw [hcp]
    simp [Multiset.card_map]
  have hadm := inv.adm_eq
  unfold inFlight
  omega

/-- C8 amended-theorem witness: the bound applied at a concrete reachable
state. -/
theorem C8_pipeline_window_witness :
    inFlight (pipeInit Unit Unit Unit [()] 1) ≤ 2 * 1 + 1 :=
  C8_pipeline_window (fun _ => Except.ok ()) (id : Unit → Unit) 1 [()] _
    Relation.ReflTransGen.refl

/-- C9 counterexample: with `W = 2` and a factory that succeeds once and then
fails, the error state is reached with one worker already spawned — the error
is not returned "before any worker has been spawned". -/
theorem C9_cex_worker_already_spawned :
    Reachable (fun k => if k = 0 then Except.ok () else Except.error ())
      (id : Unit → Unit) 2 ([] : List Unit)
      (⟨.failed (), 1, 1, [], 0, [], 0, [], 0, 4, 0⟩ : PipeState Unit Unit Unit)
    ∧ (⟨.failed (), 1, 1, [], 0, [], 0, [], 0, 4, 0⟩
        : PipeState Unit Unit Unit).spawned = 1
    ∧ ¬ ((⟨.failed (), 1, 1, [], 0, [], 0, [], 0, 4, 0⟩
        : PipeState Unit Unit Unit).spawned = 0) := by
  have t1 : Step (fun k => if k = 0 then Except.ok () else Except.error ())
      (id : Unit → Unit) 2 (pipeInit Unit Unit Unit [] 2)
      (⟨.spawning, 1, 1, [], 0, [], 0, [], 0, 4, 0⟩ : PipeState Unit Unit Unit) :=
    Step.spawnOk _ () rfl (by decide) rfl
  have t2 : Step (fun k => if k = 0 then Except.ok () else Except.error ())
      (id : Unit → Unit) 2
      (⟨.spawning, 1, 1, [], 0, [], 0, [], 0, 4, 0⟩ : PipeState Unit Unit Unit)
      (⟨.failed (), 1, 1, [], 0, [], 0, [], 0, 4, 0⟩ : PipeState Unit Unit Unit) :=
    Step.spawnErr _ () rfl (by decide) rfl
  exact ⟨(Relation.ReflTransGen.refl.tail t1).tail t2, rfl, by decide⟩

/-- C9 (amended): if the thread-context factory first fails on its `k`-th
call, `parallel_process` returns exactly that error, with the `k` workers of
the earlier successful creations already spawned (they may run the producer);
all factory calls before the failing one succeeded, and the consumer is never
invoked on the error path (the receive loop is never entered). -/
theorem C9_context_failure {E C Item Data : Type} (factory : Nat → Except E C)
    (f : Item → Data) (W : Nat) (xs : List Item) (s : PipeState E Item Data) (e : E)
    (h : Reachable factory f W xs s) (hf : s.phase = Phase.failed e) :
    factory s.spawned = Except.error e
    ∧ (∀ j, j < s.spawned → (factory j).isOk)
    ∧ s.consumed = []
    ∧ s.nextIdx = 0 := by
  have inv := pipeInv_reachable h
  have h0 : s.nextIdx = 0 := by
    refine inv.notRunning_nextIdx ?_
    rw [hf]
    intro hcon
    exact Phase.noConfusion hcon
  refine ⟨inv.failed_spec e hf, inv.spawn_ok, ?_, h0⟩
  rw [inv.consumed_eq, h0]
  rfl

/-- C9 witness: the amended theorem applied to a concrete failing run
(factory succeeds for worker 0, fails for worker 1). -/
theorem C9_context_failure_witness :
    (fun k => if k = 0 then Except.ok () else Except.error ()) 1 = Except.error ()
    ∧ (⟨.failed (), 1, 1, [], 0, [], 0, [], 0, 4, 0⟩
        : PipeState Unit Unit Unit).consumed = [] := by
  have t1 : Step (fun k => if k = 0 then Except.ok () else Except.error ())
      (id : Unit → Unit) 2 (pipeInit Unit Unit Unit [] 2)
      (⟨.spawning, 1, 1, [], 0, [], 0, [], 0, 4, 0⟩ : PipeState Unit Unit Unit) :=
    Step.spawnOk _ () rfl (by decide) rfl
  have t2 : Step (fun k => if k = 0 then Except.ok () else Except.error ())
      (id : Unit → Unit) 2
      (⟨.spawning, 1, 1, [], 0, [], 0, [], 0, 4, 0⟩ : PipeState Unit Unit Unit)
      (⟨.failed (), 1, 1, [], 0, [], 0, [], 0, 4, 0⟩ : PipeState Unit Unit Unit) :=
    Step.spawnErr _ () rfl (by decide) rfl
  have hr : Reachable (fun k => if k = 0 then Except.ok () else Except.error ())
      (id : Unit → Unit) 2 ([] : List Unit)
      (⟨.failed (), 1, 1, [], 0, [], 0, [], 0, 4, 0⟩ : PipeState Unit Unit Unit) :=
    (Relation.ReflTransGen.refl.tail t1).tail t2
  have := C9_context_failure (fun k => if k = 0 then Except.ok () else Except.error ())
    (id : Unit → Unit) 2 ([] : List Unit) _ () hr rfl
  exact ⟨this.1, this.2.2.1⟩

/-- C10: for an empty input iterator, every reachable state of
`parallel_process` has an empty consumed sequence and zero producer
invocations; and when all `W` context creations succeed (the factory is still
called once per worker) the `Ok(())` return configuration is reachable with
all `W` workers spawned. -/
theorem C10_empty_input {E C Item Data : Type} (factory : Nat → Except E C)
    (f : Item → Data) (W : Nat) :
    (∀ s : PipeState E Item Data, Reachable factory f W [] s →
      s.consumed = [] ∧ s.produced = 0)
    ∧ ((∀ k, k < W → (factory k).isOk) →
        ∃ s : PipeState E Item Data, Reachable factory f W [] s ∧ okReturn s
          ∧ s.spawned = W) := by
  constructor
  · intro s h
    have inv := pipeInv_reachable h
    constructor
    · rw [inv.consumed_eq]
      simp
    · have h14 := inv.produced_eq
      simp at h14
      omega
  · intro hok
    have hchain : ∀ k, k ≤ W → Reachable factory f W ([] : List Item)
        (⟨.spawning, k, k, [], 0, [], 0, [], 0, 2 * W, 0⟩ : PipeState E Item Data) := by
      intro k
      induction k with
      | zero =>
        intro _
        exact Relation.ReflTransGen.refl
      | succ m ih =>
        intro hm
        have hr := ih (by omega)
        have hiso := hok m (by omega)
        cases hfm : factory m with
        | ok c =>
          exact hr.tail (Step.spawnOk _ c rfl (by show m < W; omega) hfm)
        | error e =>
          rw [hfm] at hiso
          simp [Except.isOk, Except.toBool] at hiso
    have hW := hchain W (Nat.le_refl W)
    refine ⟨_, hW.tail (Step.spawnDone _ rfl rfl), ⟨rfl, rfl, rfl, rfl, rfl⟩, rfl⟩

/-- C10 witness: the theorem applied with one worker and an always-succeeding
factory, at the initial state and for the existence part. -/
theorem C10_empty_input_witness :
    ((pipeInit Unit Unit Unit [] 1).consumed = []
      ∧ (pipeInit Unit Unit Unit [] 1).produced = 0)
    ∧ ∃ s : PipeState Unit Unit Unit,
        Reachable (fun _ => Except.ok ()) (id : Unit → Unit) 1 [] s ∧ okReturn s
          ∧ s.spawned = 1 :=
  ⟨(C10_empty_input (fun _ => Except.ok ()) (id : Unit → Unit) 1).1 _
      Relation.ReflTransGen.refl,
   (C10_empty_input (fun _ => Except.ok ()) (id : Unit → Unit) 1).2 (fun _ _ => rfl)⟩

end Osmflat
